import Mathlib

set_option maxRecDepth 8000

/-!
Verification of the MarkMuse image-extraction / storage / Markdown-reconstruction
pipeline (src/markmuse.py) against its natural-language specification.

The Python code is shallowly embedded: strings become `List Char`, bytes become
`List Nat`, Python dictionaries become association lists with latest-binding-first
lookup, and the collaborating services (remote object store, LLM describer,
final-document uploader) become explicit parameters that can return a value or
signal an exception, mirroring how the Python call sites observe them.
-/

/-- Shorthand turning a Lean string literal into the character-list
representation used throughout the embedding. -/
def txt (s : String) : List Char := s.data

/-- The whitespace characters recognised by Python's `str.split()`, i.e. the
code points for which `str.isspace()` holds: U+0009–U+000D, U+001C–U+0020,
U+0085, U+00A0, U+1680, U+2000–U+200A, U+2028, U+2029, U+202F, U+205F and
U+3000; used to model `''.join(s.split())` in `_process_single_image`. -/
def isPySpace (c : Char) : Bool :=
  decide ((9 ≤ c.toNat ∧ c.toNat ≤ 13) ∨ (28 ≤ c.toNat ∧ c.toNat ≤ 32) ∨
    c.toNat = 133 ∨ c.toNat = 160 ∨ c.toNat = 5760 ∨
    (8192 ≤ c.toNat ∧ c.toNat ≤ 8202) ∨ c.toNat = 8232 ∨ c.toNat = 8233 ∨
    c.toNat = 8239 ∨ c.toNat = 8287 ∨ c.toNat = 12288)

/-- Removal of all whitespace, modelling `''.join(image_base64_data.split())`
(markmuse.py line 414). -/
def removeWs (s : List Char) : List Char := s.filter (fun c => !(isPySpace c))

/-- Python `str.split(sep)` for a single-character separator. -/
def splitChar (sep : Char) : List Char → List (List Char)
  | [] => [[]]
  | c :: cs =>
    let r := splitChar sep cs
    if c = sep then [] :: r
    else
      match r with
      | [] => [[c]]
      | g :: gs => (c :: g) :: gs

/-- Everything after the first occurrence of `sep`, modelling
`s.split(sep, 1)[1]` when `sep` is known to occur in `s`. -/
def afterFirst (sep : Char) : List Char → List Char
  | [] => []
  | c :: cs => if c = sep then cs else afterFirst sep cs

/-- Splits a list at the first occurrence of `sep`: returns the part before it
and the part after it, or `none` when `sep` does not occur. -/
def splitAtChar (sep : Char) : List Char → Option (List Char × List Char)
  | [] => none
  | c :: cs =>
    if c = sep then some ([], cs)
    else (splitAtChar sep cs).map (fun p => (c :: p.1, p.2))

/-- Boolean test for `pat` being an initial segment of `l`. -/
def startsWith : List Char → List Char → Bool
  | [], _ => true
  | _ :: _, [] => false
  | p :: ps, c :: cs => p = c && startsWith ps cs

/-- Boolean substring test, modelling Python's `sub in s`. -/
def containsSub (pat : List Char) : List Char → Bool
  | [] => startsWith pat []
  | c :: cs => startsWith pat (c :: cs) || containsSub pat cs

/-- `os.path.join(a, b)` for a relative second argument on a POSIX system. -/
def joinPath (a b : List Char) : List Char := a ++ txt "/" ++ b

/-- The trailing path segment of a URL or path: `s.split('/')[-1]` when `'/'`
occurs in `s`, and `s` itself otherwise (markmuse.py lines 622-625). -/
def lastSegment (s : List Char) : List Char := ((splitChar '/' s).getLastD [])

/-- Path components after splitting on `/` and dropping empty parts, as
`posixpath.relpath` does after `abspath`. -/
def splitComponents (s : List Char) : List (List Char) :=
  (splitChar '/' s).filter (fun c => c ≠ [])

/-- Length of the longest common initial segment of two component lists,
modelling `os.path.commonprefix` on split path lists. -/
def commonLen : List (List Char) → List (List Char) → Nat
  | a :: as, b :: bs => if a = b then commonLen as bs + 1 else 0
  | _, _ => 0

/-- Resolution of `.` and `..` components as `posixpath.normpath` (via
`abspath`) performs it on a relative path: `.` is dropped, `..` pops the last
resolved component or, with nothing left to pop, counts as one step above the
working directory.  Returns the number of such excess upward steps together
with the resolved components. -/
def normPartsAux : List (List Char) → Nat → List (List Char) → Nat × List (List Char)
  | [], ups, acc => (ups, acc.reverse)
  | c :: cs, ups, acc =>
    if c = txt "." then normPartsAux cs ups acc
    else if c = txt ".." then
      match acc with
      | [] => normPartsAux cs (ups + 1) []
      | _ :: rest => normPartsAux cs ups rest
    else normPartsAux cs ups (c :: acc)

/-- Normalised form of a relative path's component list. -/
def normParts (l : List (List Char)) : Nat × List (List Char) := normPartsAux l 0 []

/-- `os.path.relpath(path, start)` on POSIX.  Both arguments are resolved
against the same working directory by `abspath` (which also normalises `.`
and `..`); the working directory's components form a shared prefix that
cancels in the common-prefix computation, so for inputs whose normalised
forms do not climb above the working directory (no excess `..` steps — in
this repository both arguments are always rooted in the output directory)
the result is working-directory-independent and equals this formula. -/
def relpath (path start : List Char) : List Char :=
  let p := (normParts (splitComponents path)).2
  let s := (normParts (splitComponents start)).2
  let i := commonLen s p
  let rel := List.replicate (s.length - i) (txt "..") ++ p.drop i
  if rel = [] then txt "." else List.intercalate (txt "/") rel

/-- The working-directory-independence domain of `relpath`: a relative path
(no leading `/`) whose `.` and `..` normalisation does not climb above the
working directory.  Every image path and output directory the program forms
(rooted in the output directory) lies in this domain. -/
def withinCwd (p : List Char) : Bool :=
  ((normParts (splitComponents p)).1 == 0) &&
    (match p with
     | '/' :: _ => false
     | _ => true)

/-- Value of a single character of the standard base64 alphabet (`A`–`Z`
codes 65–90, `a`–`z` codes 97–122, `0`–`9` codes 48–57, `+` 43, `/` 47). -/
def b64val (c : Char) : Option Nat :=
  if 65 ≤ c.toNat ∧ c.toNat ≤ 90 then some (c.toNat - 65)
  else if 97 ≤ c.toNat ∧ c.toNat ≤ 122 then some (c.toNat - 97 + 26)
  else if 48 ≤ c.toNat ∧ c.toNat ≤ 57 then some (c.toNat - 48 + 52)
  else if c.toNat = 43 then some 62
  else if c.toNat = 47 then some 63
  else none

/-- The scanning loop of CPython's `binascii.a2b_base64` in non-strict mode,
with state quad position / accumulated leftover bits / pad count: characters
outside the alphabet are skipped; a `=` at quad position 0 or 1 is ignored,
while at quad position ≥ 2 it counts toward the pad total and, once the quad
is pad-completed, decoding stops successfully and all remaining input is
ignored (so `b64decode('QQ==QQ==')` is the single byte of `QQ==`); data
characters emit bytes eagerly (one byte from the second and third character
of a quad, one more from the fourth) and reset the pad count; input ending
at a quad position other than 0 is an error. -/
def b64scan : List Char → Nat → Nat → Nat → Option (List Nat)
  | [], quadPos, _, _ => if quadPos = 0 then some [] else none
  | c :: cs, quadPos, leftchar, pads =>
    if c.toNat = 61 then
      if 2 ≤ quadPos then
        if 4 ≤ quadPos + (pads + 1) then some []
        else b64scan cs quadPos leftchar (pads + 1)
      else b64scan cs quadPos leftchar pads
    else
      match b64val c with
      | none => b64scan cs quadPos leftchar pads
      | some v =>
        match quadPos with
        | 0 => b64scan cs 1 v 0
        | 1 => Option.map (fun bs => (leftchar * 4 + v / 16) :: bs) (b64scan cs 2 (v % 16) 0)
        | 2 => Option.map (fun bs => (leftchar * 16 + v / 4) :: bs) (b64scan cs 3 (v % 4) 0)
        | _ => Option.map (fun bs => (leftchar * 64 + v) :: bs) (b64scan cs 0 0 0)

/-- The reference base64 decoder `base64.b64decode(s)` on a `str` argument
with its defaults: the string is first encoded as ASCII — any code point
above 127 raises `ValueError`, modelled as `none` — and the bytes are then
decoded by `binascii.a2b_base64` in non-strict mode (`b64scan`). -/
def b64decode (s : List Char) : Option (List Nat) :=
  if s.all (fun c => c.toNat < 128) then b64scan s 0 0 0 else none

/-- Decoding of one image payload body after the data-URI handling: cleanup of
whitespace, a first decode attempt, and on failure the single padding-repair
retry, modelling markmuse.py lines 412-426.  `ct` is the content type already
determined from the optional prefix. -/
def decodeBody (data ct : List Char) : Option (List Nat × List Char) :=
  let cleaned := removeWs data
  match b64decode cleaned with
  | some bs => some (bs, ct)
  | none =>
    let pn := cleaned.length % 4
    let cleaned2 := if pn ≠ 0 then cleaned ++ List.replicate (4 - pn) '=' else cleaned
    match b64decode cleaned2 with
    | some bs => some (bs, ct)
    | none => none

/-- Payload decoding including the `data:<mime>;base64,` prefix handling of
markmuse.py lines 405-426: when the payload contains both a comma and the
substring `;base64,`, the content type is `s.split(';')[0].split(':')[1]`
(whose absence raises an IndexError, observed by the caller as a per-image
failure, hence `none`) and the body is everything after the first comma;
otherwise the content type defaults to `image/png`. -/
def decodePayload (raw : List Char) : Option (List Nat × List Char) :=
  if containsSub (txt ",") raw && containsSub (txt ";base64,") raw then
    match (splitChar ':' ((splitChar ';' raw).headD [])).get? 1 with
    | none => none
    | some ct => decodeBody (afterFirst ',' raw) ct
  else
    decodeBody raw (txt "image/png")

/-- Case normalisation of a character as `re.IGNORECASE` literal matching
performs it on the letters of the extension regexes: ASCII lower-casing,
plus the only non-ASCII characters that can match one of those letters —
`İ` (U+0130), whose simple Unicode lowercase is `i`, and `ı` (U+0131),
equivalent to `i` through sre's case-equivalence table. -/
def lowerChar (c : Char) : Char :=
  if 'A' ≤ c ∧ c ≤ 'Z' then Char.ofNat (c.toNat + 32)
  else if c.toNat = 304 ∨ c.toNat = 305 then 'i'
  else c

/-- Boolean test for `pat` being a final segment of `l`. -/
def endsWith (pat l : List Char) : Bool := startsWith pat.reverse l.reverse

/-- The positions at which the regex anchor `$` can match (without
`re.MULTILINE`): the end of the string, or just before a newline that ends
the string.  An extension-suffix pattern `\.(…)$` therefore tests the string
with one trailing `\n`, if present, removed. -/
def reEndTarget (s : List Char) : List Char :=
  match s.getLast? with
  | some c => if c = '\n' then s.dropLast else s
  | none => s

/-- The check `re.search(r'\.(jpg|jpeg|png|gif|webp)$', s, re.IGNORECASE)` used
by the reference-resolution lookups (markmuse.py lines 584 and 640),
including `$` matching before a trailing newline. -/
def hasExt5 (s : List Char) : Bool :=
  [".jpg", ".jpeg", ".png", ".gif", ".webp"].any
    (fun e => endsWith (txt e) ((reEndTarget s).map lowerChar))

/-- The check `re.search(r'\.(jpg|jpeg|png|gif|webp|bmp|tiff)$', s,
re.IGNORECASE)` used for filename normalization and the dual-key map insertion
(markmuse.py lines 367 and 396), including `$` matching before a trailing
newline. -/
def hasExt7 (s : List Char) : Bool :=
  [".jpg", ".jpeg", ".png", ".gif", ".webp", ".bmp", ".tiff"].any
    (fun e => endsWith (txt e) ((reEndTarget s).map lowerChar))

/-- A character replaced by `_` during filename sanitization, from the
character class `[\\/*?:'"<>|]` (markmuse.py line 393); code 39 is the
apostrophe. -/
def badFilenameChar (c : Char) : Bool :=
  c = '\\' || c = '/' || c = '*' || c = '?' || c = ':' || c = Char.ofNat 39 ||
    c = '"' || c = '<' || c = '>' || c = '|'

/-- Filename sanitization `re.sub(r"[\\/*?:'\"<>|]", "_", img_id)`. -/
def sanitize (s : List Char) : List Char :=
  s.map (fun c => if badFilenameChar c then '_' else c)

/-- A value of the image map.  The source allows two shapes (`Union[str,
Dict]`): a bare path string, or a dict with a `path` key, an `is_s3` key that
defaults to `False` when absent, and a `description` key present exactly when
a non-empty description was produced. -/
inductive PyImgVal where
  | vstr (s : List Char)
  | vdict (path : List Char) (isS3 : Bool) (description : Option (List Char))
deriving DecidableEq

/-- Dictionary lookup in the image map; the map is kept newest-binding-first,
so taking the first hit models Python dict overwriting semantics. -/
def mapLookup (k : List Char) : List (List Char × PyImgVal) → Option PyImgVal
  | [] => none
  | (k2, v) :: rest => if k2 = k then some v else mapLookup k rest

/-- The candidate extensions `['.png', '.jpg', '.jpeg', '.gif', '.webp']`
tried in order by both resolution sites (markmuse.py lines 585 and 641). -/
def extCandidates : List (List Char) :=
  [txt ".png", txt ".jpg", txt ".jpeg", txt ".gif", txt ".webp"]

/-- The `for ext in [...]: if img_id + ext in image_map: ...; break` loop. -/
def firstExtHit (m : List (List Char × PyImgVal)) (imgId : List Char) :
    List (List Char) → Option PyImgVal
  | [] => none
  | e :: es =>
    match mapLookup (imgId ++ e) m with
    | some v => some v
    | none => firstExtHit m imgId es

/-- The shared lookup logic of both resolution sites (markmuse.py lines
579-588 and 631-649): exact ID first, then — only when the ID lacks a known
image extension — the extension candidates in order. -/
def lookupImageInfo (m : List (List Char × PyImgVal)) (imgId : List Char) :
    Option PyImgVal :=
  match mapLookup imgId m with
  | some v => some v
  | none => if hasExt5 imgId then none else firstExtHit m imgId extCandidates

/-- The lookup order exactly as the specification words it: (a) exact ID in
the ArtifactMap; (b) if the ID lacks a known image extension, try the
candidates in that fixed order, first match wins.  Used as the comparison
point for claim C8. -/
def lookupOrderSpec (m : List (List Char × PyImgVal)) (imgId : List Char) :
    Option PyImgVal :=
  match mapLookup imgId m with
  | some v => some v
  | none =>
    if hasExt5 imgId then none
    else extCandidates.findSome? (fun e => mapLookup (imgId ++ e) m)

/-- The full text of a Markdown image reference `![alt](target)`; this is
both the shape matched by the regex and `match.group(0)`. -/
def mkRef (alt tgt : List Char) : List Char :=
  '!' :: '[' :: (alt ++ ']' :: '(' :: (tgt ++ [')']))

/-- The AI-description block appended after an enhanced image reference,
from the f-string at markmuse.py line 604. -/
def descBlock (d : List Char) : List Char :=
  txt "\n\n**AI图片分析**：" ++ d ++ txt "\n"

/-- One attempt of the regex `!\[([^\]]*)\]\(([^)]+)\)` at the head of the
text: alt text runs to the first `]`, which must be followed by `(`, and the
non-empty target runs to the first `)`.  Returns alt, target and the text
after the match. -/
def matchImage (l : List Char) : Option (List Char × List Char × List Char) :=
  match l with
  | a :: b :: rest =>
    if a = '!' ∧ b = '[' then
      match splitAtChar ']' rest with
      | some (alt, rest2) =>
        match rest2 with
        | c :: rest3 =>
          if c = '(' then
            match splitAtChar ')' rest3 with
            | some (tgt, rest4) => if tgt = [] then none else some (alt, tgt, rest4)
            | none => none
          else none
        | [] => none
      | none => none
    else none
  | _ => none

/-- Fuelled single left-to-right `re.sub` scan: at each position the pattern
is tried; a match is replaced by `f alt target` and the scan resumes after the
matched span of the original text, so replacement output is never rescanned.
The fuel only serves to make the recursion structural; it is never exhausted
when it starts at the text length. -/
def subImagesFuel (f : List Char → List Char → List Char) :
    Nat → List Char → List Char
  | 0, l => l
  | _ + 1, [] => []
  | fuel + 1, c :: cs =>
    match matchImage (c :: cs) with
    | some (alt, tgt, rest) => f alt tgt ++ subImagesFuel f fuel rest
    | none => c :: subImagesFuel f fuel cs

/-- `re.sub(r'!\[([^\]]*)\]\(([^)]+)\)', f, text)` (markmuse.py line 666). -/
def subImages (f : List Char → List Char → List Char) (l : List Char) : List Char :=
  subImagesFuel f l.length l

/-- Fuelled scan collecting the groups of every non-overlapping match, the
traversal of `re.findall` (markmuse.py line 571). -/
def findMatchesFuel : Nat → List Char → List (List Char × List Char)
  | 0, _ => []
  | _ + 1, [] => []
  | fuel + 1, c :: cs =>
    match matchImage (c :: cs) with
    | some (alt, tgt, rest) => (alt, tgt) :: findMatchesFuel fuel rest
    | none => findMatchesFuel fuel cs

/-- `re.findall(r'!\[([^\]]*)\]\(([^)]+)\)', text)`. -/
def findMatches (l : List Char) : List (List Char × List Char) :=
  findMatchesFuel l.length l

/-- Fuelled Python `str.replace`: every non-overlapping occurrence of `pat`
(scanning left to right) is replaced by `rep`.  Only called with a non-empty
pattern. -/
def replaceAllFuel (pat rep : List Char) : Nat → List Char → List Char
  | 0, l => l
  | _ + 1, [] => []
  | fuel + 1, c :: cs =>
    if startsWith pat (c :: cs) then rep ++ replaceAllFuel pat rep fuel ((c :: cs).drop pat.length)
    else c :: replaceAllFuel pat rep fuel cs

/-- `text.replace(pat, rep)` (markmuse.py line 608). -/
def replaceAll (pat rep l : List Char) : List Char := replaceAllFuel pat rep l.length l

/-- The replacement callback `replace_image_link` (markmuse.py lines
616-662): resolve the target's trailing path segment through the image map;
on a hit with a truthy path, rewrite the link target to the S3 URL verbatim
or to the path relative to the output directory (separators normalised to
`/`, the identity on POSIX); otherwise return the original match text. -/
def replaceImageLink (m : List (List Char × PyImgVal)) (outputDir : List Char)
    (altText originalUrl : List Char) : List Char :=
  let imgId := lastSegment originalUrl
  match lookupImageInfo m imgId with
  | none => mkRef altText originalUrl
  | some info =>
    let pathOrUrl := match info with | .vstr s => s | .vdict p _ _ => p
    let isS3 := match info with | .vstr _ => false | .vdict _ s _ => s
    if pathOrUrl ≠ [] then
      if isS3 then mkRef altText pathOrUrl
      else mkRef altText (relpath pathOrUrl outputDir)
    else mkRef altText originalUrl

/-- The enhanced-mode per-page rewriting (markmuse.py lines 569-608): collect
all matches of the page's original text with `findall`, then for each match
whose target resolves to a dict carrying a description, globally replace
every occurrence of the original reference text in the current page text with
the rewritten reference plus description block (markmuse.py lines 572-608).
This is the handling of one `findall` match. -/
def enhancedStep (m : List (List Char × PyImgVal)) (outputDir : List Char)
    (pc : List Char) (r : List Char × List Char) : List Char :=
  match lookupImageInfo m (lastSegment r.2) with
  | some (.vdict path isS3 (some desc)) =>
    let target := if isS3 then path else relpath path outputDir
    replaceAll (mkRef r.1 r.2) (mkRef r.1 target ++ descBlock desc) pc
  | _ => pc

/-- The enhanced-mode per-page rewriting (markmuse.py lines 569-608): collect
all matches of the page's original text with `findall`, then fold
`enhancedStep` over them, each step rewriting the current page text. -/
def enhancedPass (m : List (List Char × PyImgVal)) (outputDir content : List Char) :
    List Char :=
  (findMatches content).foldl (enhancedStep m outputDir) content

/-- Decimal rendering of a number, for the default image ID
`img-p{page}-{n}.png`. -/
def natChars (n : Nat) : List Char := (Nat.repr n).data

/-- Outcome of a call into a collaborating service as a Python call site
observes it: a returned value, or a raised exception. -/
inductive CallResult (α : Type) where
  | ok (a : α)
  | exn

/-- One embedded image of an OCR page.  `id` and `imageBase64` are `none`
when the attribute is absent (`getattr` with default). -/
structure EmbeddedImage where
  id : Option (List Char)
  imageBase64 : Option (List Char)
deriving DecidableEq

/-- One OCR page: `markdown` is `none` when the page has no `markdown`
attribute; an absent `images` attribute is the empty list. -/
structure Page where
  markdown : Option (List Char)
  images : List EmbeddedImage

/-- The converter configuration and its collaborating services.  `useS3`
stands for `self.use_s3 and self.storage_client` (the constructor clears
`use_s3` whenever the client is missing); `hasLlm` for `self.llm_client`
being set.  `remote` models `storage_client.upload_bytes(data, path,
content_type)`: it may return a URL, return an empty/absent URL (Python
falsy), or raise.  `describe` models the image-analysis call (URL or
streaming variant), whose failures the source catches per image; an `ok`
empty string is a falsy description.  `mdUpload` models
`storage_client.upload_file` for the final document. -/
structure Env where
  useS3 : Bool
  enhanceImages : Bool
  hasLlm : Bool
  remote : List Nat → List Char → List Char → CallResult (List Char)
  describe : List Char → CallResult (List Char)
  mdUpload : CallResult (List Char)

/-- `MarkMuse._process_single_image` (markmuse.py lines 385-526).  Returns
the map entry `(img_id, value)` together with the local file writes it
performed, or `none` when the image is skipped: missing or empty payload,
decode failure, decoded size under 100 bytes, or an exception escaping to the
per-image handler at lines 524-526 (notably one raised by the remote store).
Every failure path returns before any local write, so a skipped image
persists nothing. -/
def processSingleImage (env : Env) (imagesDir : List Char)
    (task : Nat × Nat × EmbeddedImage) :
    Option (List Char × PyImgVal × List (List Char × List Nat)) :=
  let pageIdx := task.1
  let imgIdx := task.2.1
  let img := task.2.2
  let imgId := match img.id with
    | some s => s
    | none => txt "img-p" ++ natChars (pageIdx + 1) ++ txt "-" ++ natChars (imgIdx + 1) ++ txt ".png"
  let safe0 := sanitize imgId
  let safeFilename := if hasExt7 safe0 then safe0 else safe0 ++ txt ".png"
  match img.imageBase64 with
  | none => none
  | some payload =>
    if payload.isEmpty then none
    else
      match decodePayload payload with
      | none => none
      | some (bytes, contentType) =>
        if bytes.length < 100 then none
        else
          match (if env.useS3 then
                   env.remote bytes (joinPath (lastSegment imagesDir) safeFilename) contentType
                 else .ok []) with
          | .exn => none
          | .ok imgUrl =>
            let imgPath := joinPath imagesDir safeFilename
            let writes : List (List Char × List Nat) :=
              if imgUrl.isEmpty then [(imgPath, bytes)] else []
            let description :=
              if env.enhanceImages && env.hasLlm then
                match env.describe imgId with
                | .exn => []
                | .ok d => d
              else []
            some (imgId,
              .vdict (if imgUrl.isEmpty then imgPath else imgUrl) (!imgUrl.isEmpty)
                (if description.isEmpty then none else some description),
              writes)

/-- The flattened `(page_idx, img_idx, img)` task list built at markmuse.py
lines 346-352. -/
def flattenTasks (pages : List Page) : List (Nat × Nat × EmbeddedImage) :=
  (pages.enum.map (fun pi => pi.2.images.enum.map (fun ii => (pi.1, ii.1, ii.2)))).flatten

/-- Collection of completed image results into the image map (markmuse.py
lines 361-369): a `none` result contributes nothing; a completed result is
inserted under its ID and, when the ID lacks a recognised extension, also
under ID + `.png`.  Prepending a binding models dict overwrite under the
newest-first `mapLookup`.  Accumulates local file writes alongside. -/
def saveStep (env : Env) (imagesDir : List Char)
    (acc : List (List Char × PyImgVal) × List (List Char × List Nat))
    (task : Nat × Nat × EmbeddedImage) :
    List (List Char × PyImgVal) × List (List Char × List Nat) :=
  match processSingleImage env imagesDir task with
  | none => acc
  | some (imgId, v, w) =>
    let m1 := (imgId, v) :: acc.1
    let m2 := if hasExt7 imgId then m1 else (imgId ++ txt ".png", v) :: m1
    (m2, acc.2 ++ w)

/-- Fold of `saveStep` over the flattened task list, producing the image map
and the accumulated local writes. -/
def saveTasks (env : Env) (imagesDir : List Char)
    (tasks : List (Nat × Nat × EmbeddedImage)) :
    List (List Char × PyImgVal) × List (List Char × List Nat) :=
  tasks.foldl (saveStep env imagesDir) ([], [])

/-- `MarkMuse.save_images_from_ocr` (markmuse.py lines 307-383), with the
thread pool modelled by processing the flattened task list in order (no claim
here depends on completion order). -/
def saveImagesFromOcr (env : Env) (pages : List Page) (imagesDir : List Char) :
    List (List Char × PyImgVal) × List (List Char × List Nat) :=
  saveTasks env imagesDir (flattenTasks pages)

/-- Observable outcome of `create_markdown_from_ocr`: the returned path (the
conversion's terminal result), the Markdown text written to the local output
file, and the local image writes performed. -/
structure MdResult where
  finalPath : List Char
  content : List Char
  imageWrites : List (List Char × List Nat)
deriving DecidableEq

/-- `MarkMuse.create_markdown_from_ocr` (markmuse.py lines 528-685): save
the images, rewrite each page in enhanced mode (or leave it), join pages with
blank lines, apply the `re.sub` rewriting only in non-enhanced mode, write
the document locally, and in S3 mode upload it — a falsy upload result keeps
the local path, an upload exception makes the function return the empty
string. -/
def createMarkdownFromOcr (env : Env) (pages : List Page)
    (outputDir filename : List Char) : MdResult :=
  let imagesDir := joinPath outputDir (filename ++ txt "_images")
  let sv := saveImagesFromOcr env pages imagesDir
  let imageMap := sv.1
  let outputFile := joinPath outputDir (filename ++ txt ".md")
  let contents := pages.filterMap (fun p => p.markdown.map (fun md =>
    if env.enhanceImages then enhancedPass imageMap outputDir md else md))
  let merged := List.intercalate (txt "\n\n") contents
  let mdContent :=
    if env.enhanceImages then merged
    else subImages (replaceImageLink imageMap outputDir) merged
  let finalPath :=
    if env.useS3 then
      match env.mdUpload with
      | .exn => txt ""
      | .ok u => if u.isEmpty then outputFile else u
    else outputFile
  ⟨finalPath, mdContent, sv.2⟩

/-- `MarkMuse.convert_pdf_to_md` (markmuse.py lines 687-733) after the OCR
step: a missing OCR result yields the empty string (failure); otherwise the
conversion's terminal result is exactly the path string returned by
`create_markdown_from_ocr`. -/
def convertPdfToMd (env : Env) (ocrResult : Option (List Page))
    (outputDir filename : List Char) : List Char :=
  match ocrResult with
  | none => txt ""
  | some pages => (createMarkdownFromOcr env pages outputDir filename).finalPath

/-- The pad-free data segment of a `b64scan` run: the bytes it emits and the
quad position and leftover bits it ends in, for input without `=`. -/
def alphaRun : List Char → Nat → Nat → (List Nat × Nat × Nat)
  | [], quadPos, leftchar => ([], quadPos, leftchar)
  | c :: cs, quadPos, leftchar =>
    match b64val c with
    | none => alphaRun cs quadPos leftchar
    | some v =>
      match quadPos with
      | 0 => alphaRun cs 1 v
      | 1 =>
        let r := alphaRun cs 2 (v % 16)
        ((leftchar * 4 + v / 16) :: r.1, r.2)
      | 2 =>
        let r := alphaRun cs 3 (v % 4)
        ((leftchar * 16 + v / 4) :: r.1, r.2)
      | _ =>
        let r := alphaRun cs 0 0
        ((leftchar * 64 + v) :: r.1, r.2)

theorem b64val_ranges {c : Char} (h : (b64val c).isSome = true) :
    (65 ≤ c.toNat ∧ c.toNat ≤ 90) ∨ (97 ≤ c.toNat ∧ c.toNat ≤ 122) ∨
    (48 ≤ c.toNat ∧ c.toNat ≤ 57) ∨ c.toNat = 43 ∨ c.toNat = 47 := by
  simp only [b64val] at h
  split at h
  · exact Or.inl ‹_›
  · split at h
    · exact Or.inr (Or.inl ‹_›)
    · split at h
      · exact Or.inr (Or.inr (Or.inl ‹_›))
      · split at h
        · exact Or.inr (Or.inr (Or.inr (Or.inl ‹_›)))
        · split at h
          · exact Or.inr (Or.inr (Or.inr (Or.inr ‹_›)))
          · simp at h

theorem pad_or_alpha_props {c : Char} (h : (b64val c).isSome = true ∨ c.toNat = 61) :
    isPySpace c = false ∧ c.toNat < 128 ∧ c ≠ ',' := by
  have hn : (65 ≤ c.toNat ∧ c.toNat ≤ 90) ∨ (97 ≤ c.toNat ∧ c.toNat ≤ 122) ∨
      (48 ≤ c.toNat ∧ c.toNat ≤ 57) ∨ c.toNat = 43 ∨ c.toNat = 47 ∨ c.toNat = 61 := by
    rcases h with h | h
    · rcases b64val_ranges h with h1 | h1 | h1 | h1 | h1
      · exact Or.inl h1
      · exact Or.inr (Or.inl h1)
      · exact Or.inr (Or.inr (Or.inl h1))
      · exact Or.inr (Or.inr (Or.inr (Or.inl h1)))
      · exact Or.inr (Or.inr (Or.inr (Or.inr (Or.inl h1))))
    · exact Or.inr (Or.inr (Or.inr (Or.inr (Or.inr h))))
  refine ⟨?_, ?_, ?_⟩
  · simp only [isPySpace, decide_eq_false_iff_not]
    rcases hn with ⟨h1, h2⟩ | ⟨h1, h2⟩ | ⟨h1, h2⟩ | h1 | h1 | h1 <;> omega
  · rcases hn with ⟨h1, h2⟩ | ⟨h1, h2⟩ | ⟨h1, h2⟩ | h1 | h1 | h1 <;> omega
  · intro he
    subst he
    rcases hn with ⟨h1, h2⟩ | ⟨h1, h2⟩ | ⟨h1, h2⟩ | h1 | h1 | h1 <;> revert h1 <;> decide

theorem b64scan_append_alpha :
    ∀ (w : List Char) (qp lc : Nat) (rest : List Char),
      (∀ c ∈ w, (b64val c).isSome = true) →
      b64scan (w ++ rest) qp lc 0 =
        Option.map (fun bs => (alphaRun w qp lc).1 ++ bs)
          (b64scan rest (alphaRun w qp lc).2.1 (alphaRun w qp lc).2.2 0) := by
  intro w
  induction w with
  | nil =>
    intro qp lc rest _
    simp [alphaRun]
  | cons c w' ih =>
    intro qp lc rest hw
    have hc : (b64val c).isSome = true := hw c (List.mem_cons_self _ _)
    have hw' : ∀ x ∈ w', (b64val x).isSome = true :=
      fun x hx => hw x (List.mem_cons_of_mem _ hx)
    have h61 : ¬(c.toNat = 61) := by
      rcases b64val_ranges hc with ⟨h1, h2⟩ | ⟨h1, h2⟩ | ⟨h1, h2⟩ | h1 | h1 <;> omega
    obtain ⟨v, hv⟩ := Option.isSome_iff_exists.mp hc
    rcases qp with _ | _ | _ | qp3
    · simp only [List.cons_append, List.append_eq, b64scan, h61, if_false, hv, alphaRun]
      exact ih 1 v rest hw'
    · simp only [List.cons_append, List.append_eq, b64scan, h61, if_false, hv, alphaRun]
      rw [ih 2 (v % 16) rest hw']
      cases b64scan rest (alphaRun w' 2 (v % 16)).2.1 (alphaRun w' 2 (v % 16)).2.2 0 <;> simp
    · simp only [List.cons_append, List.append_eq, b64scan, h61, if_false, hv, alphaRun]
      rw [ih 3 (v % 4) rest hw']
      cases b64scan rest (alphaRun w' 3 (v % 4)).2.1 (alphaRun w' 3 (v % 4)).2.2 0 <;> simp
    · simp only [List.cons_append, List.append_eq, b64scan, h61, if_false, hv, alphaRun]
      rw [ih 0 0 rest hw']
      cases b64scan rest (alphaRun w' 0 0).2.1 (alphaRun w' 0 0).2.2 0 <;> simp

theorem b64scan_pads :
    ∀ (m qp lc pads : Nat),
      b64scan (List.replicate m '=') qp lc pads =
        if qp = 0 then some []
        else if 2 ≤ qp ∧ 1 ≤ m ∧ 4 ≤ qp + pads + m then some [] else none := by
  intro m
  induction m with
  | zero =>
    intro qp lc pads
    by_cases hq : qp = 0 <;> simp [b64scan, hq]
  | succ m ih =>
    intro qp lc pads
    rw [List.replicate_succ]
    have hstep : b64scan ('=' :: List.replicate m '=') qp lc pads =
        if 2 ≤ qp then
          (if 4 ≤ qp + (pads + 1) then some []
           else b64scan (List.replicate m '=') qp lc (pads + 1))
        else b64scan (List.replicate m '=') qp lc pads := by
      simp [b64scan]
    rw [hstep]
    by_cases h2 : 2 ≤ qp
    · rw [if_pos h2]
      have hq : ¬(qp = 0) := by omega
      by_cases h4 : 4 ≤ qp + (pads + 1)
      · have hc : 2 ≤ qp ∧ 1 ≤ m + 1 ∧ 4 ≤ qp + pads + (m + 1) := ⟨h2, by omega, by omega⟩
        rw [if_pos h4, if_neg hq, if_pos hc]
      · rw [if_neg h4, ih qp lc (pads + 1), if_neg hq, if_neg hq]
        by_cases hC : 2 ≤ qp ∧ 1 ≤ m ∧ 4 ≤ qp + (pads + 1) + m
        · have hc : 2 ≤ qp ∧ 1 ≤ m + 1 ∧ 4 ≤ qp + pads + (m + 1) := ⟨h2, by omega, by omega⟩
          rw [if_pos hC, if_pos hc]
        · have hc : ¬(2 ≤ qp ∧ 1 ≤ m + 1 ∧ 4 ≤ qp + pads + (m + 1)) := by omega
          rw [if_neg hC, if_neg hc]
    · rw [if_neg h2, ih qp lc pads]
      by_cases hq : qp = 0
      · rw [if_pos hq, if_pos hq]
      · have hc1 : ¬(2 ≤ qp ∧ 1 ≤ m ∧ 4 ≤ qp + pads + m) := by omega
        have hc2 : ¬(2 ≤ qp ∧ 1 ≤ m + 1 ∧ 4 ≤ qp + pads + (m + 1)) := by omega
        rw [if_neg hq, if_neg hq, if_neg hc1, if_neg hc2]

theorem alphaRun_qp :
    ∀ (w : List Char) (qp lc : Nat), qp < 4 →
      (∀ c ∈ w, (b64val c).isSome = true) →
      (alphaRun w qp lc).2.1 = (qp + w.length) % 4 := by
  intro w
  induction w with
  | nil =>
    intro qp lc h4 _
    simp [alphaRun]
    omega
  | cons c w' ih =>
    intro qp lc h4 hw
    have hc := hw c (List.mem_cons_self _ _)
    obtain ⟨v, hv⟩ := Option.isSome_iff_exists.mp hc
    have hw' : ∀ x ∈ w', (b64val x).isSome = true :=
      fun x hx => hw x (List.mem_cons_of_mem _ hx)
    rcases qp with _ | _ | _ | qp3
    · simp only [alphaRun, hv]
      rw [ih 1 v (by omega) hw']
      simp
      omega
    · simp only [alphaRun, hv]
      rw [ih 2 (v % 16) (by omega) hw']
      simp
      omega
    · simp only [alphaRun, hv]
      rw [ih 3 (v % 4) (by omega) hw']
      simp
      omega
    · have hq3 : qp3 = 0 := by omega
      subst hq3
      simp only [alphaRun, hv]
      rw [ih 0 0 (by omega) hw']
      simp
      omega

theorem splitAtChar_eq_some {sep : Char} :
    ∀ {l pre post : List Char}, splitAtChar sep l = some (pre, post) →
      l = pre ++ sep :: post ∧ sep ∉ pre := by
  intro l
  induction l with
  | nil => intro pre post h; simp [splitAtChar] at h
  | cons c cs ih =>
    intro pre post h
    by_cases hc : c = sep
    · subst hc
      simp [splitAtChar] at h
      obtain ⟨h1, h2⟩ := h
      subst h1; subst h2; simp
    · cases hs : splitAtChar sep cs with
      | none => simp [splitAtChar, hc, hs] at h
      | some p =>
        obtain ⟨p1, p2⟩ := p
        simp [splitAtChar, hc, hs] at h
        obtain ⟨h1, h2⟩ := h
        obtain ⟨hcs, hmem⟩ := ih hs
        subst h1; subst h2; subst hcs
        refine ⟨rfl, ?_⟩
        simp [hmem]
        exact fun hx => hc hx.symm

theorem splitAtChar_append {sep : Char} :
    ∀ {a : List Char} (b : List Char), sep ∉ a →
      splitAtChar sep (a ++ sep :: b) = some (a, b) := by
  intro a
  induction a with
  | nil => intro b _; simp [splitAtChar]
  | cons c cs ih =>
    intro b h
    have hc : c ≠ sep := by rintro rfl; exact h (List.mem_cons_self _ _)
    have ht : sep ∉ cs := fun hm => h (List.mem_cons_of_mem _ hm)
    simp [splitAtChar, hc, ih b ht]

theorem matchImage_eq_some {l alt tgt rest : List Char}
    (h : matchImage l = some (alt, tgt, rest)) :
    l = mkRef alt tgt ++ rest ∧ ']' ∉ alt ∧ ')' ∉ tgt ∧ tgt ≠ [] := by
  match l with
  | [] => simp [matchImage] at h
  | [a] => simp [matchImage] at h
  | a :: b :: rest0 =>
    simp only [matchImage] at h
    split at h
    · rename_i hab
      obtain ⟨ha, hb⟩ := hab
      cases hs : splitAtChar ']' rest0 with
      | none => rw [hs] at h; simp at h
      | some p =>
        obtain ⟨alt0, rest2⟩ := p
        rw [hs] at h
        match rest2 with
        | [] => simp at h
        | c :: rest3 =>
          simp only at h
          split at h
          · rename_i hc
            cases hs2 : splitAtChar ')' rest3 with
            | none => rw [hs2] at h; simp at h
            | some q =>
              obtain ⟨tgt0, rest4⟩ := q
              rw [hs2] at h
              simp only at h
              split at h
              · simp at h
              · rename_i hne
                simp only [Option.some.injEq, Prod.mk.injEq] at h
                obtain ⟨h1, h2, h3⟩ := h
                subst h1; subst h2; subst h3
                obtain ⟨e1, m1⟩ := splitAtChar_eq_some hs
                obtain ⟨e2, m2⟩ := splitAtChar_eq_some hs2
                subst ha; subst hb; subst hc; subst e1; subst e2
                refine ⟨?_, m1, m2, hne⟩
                simp [mkRef]
          · simp at h
    · simp at h

theorem matchImage_length {l alt tgt rest : List Char}
    (h : matchImage l = some (alt, tgt, rest)) : rest.length + 6 ≤ l.length := by
  obtain ⟨hl, -, -, hne⟩ := matchImage_eq_some h
  have : tgt.length ≠ 0 := fun h0 => hne (List.eq_nil_of_length_eq_zero h0)
  subst hl
  simp [mkRef]
  omega

theorem matchImage_mkRef {alt tgt : List Char} (h1 : ']' ∉ alt) (h2 : ')' ∉ tgt)
    (h3 : tgt ≠ []) (r : List Char) :
    matchImage (mkRef alt tgt ++ r) = some (alt, tgt, r) := by
  have he : mkRef alt tgt ++ r = '!' :: '[' :: (alt ++ ']' :: ('(' :: (tgt ++ ')' :: r))) := by
    simp [mkRef]
  rw [he]
  simp only [matchImage, true_and]
  rw [splitAtChar_append _ h1]
  simp only
  rw [splitAtChar_append _ h2]
  simp [h3]

theorem matchImage_none_of_ne {c : Char} {cs : List Char} (h : c ≠ '!') :
    matchImage (c :: cs) = none := by
  cases cs with
  | nil => rfl
  | cons b rest => simp [matchImage, h]

theorem subImagesFuel_congr (f : List Char → List Char → List Char) :
    ∀ n m (l : List Char), l.length ≤ n → l.length ≤ m →
      subImagesFuel f n l = subImagesFuel f m l := by
  intro n
  induction n with
  | zero =>
    intro m l hn hm
    have hl : l = [] := List.eq_nil_of_length_eq_zero (Nat.le_zero.mp hn)
    subst hl
    cases m <;> rfl
  | succ n ih =>
    intro m l hn hm
    cases l with
    | nil => cases m <;> rfl
    | cons c cs =>
      cases m with
      | zero => simp at hm
      | succ m' =>
        cases h : matchImage (c :: cs) with
        | none =>
          simp only [subImagesFuel, h]
          rw [ih m' cs (by simpa using hn) (by simpa using hm)]
        | some r =>
          obtain ⟨alt, rst⟩ := r
          obtain ⟨tgt, rest⟩ := rst
          simp only [subImagesFuel, h]
          have hl := matchImage_length h
          simp only [List.length_cons] at hl hn hm
          rw [ih m' rest (by omega) (by omega)]

theorem subImages_cons_none {f : List Char → List Char → List Char} {c : Char}
    {cs : List Char} (h : matchImage (c :: cs) = none) :
    subImages f (c :: cs) = c :: subImages f cs := by
  unfold subImages
  simp only [List.length_cons, subImagesFuel, h]

theorem subImages_of_match {f : List Char → List Char → List Char}
    {l alt tgt rest : List Char} (h : matchImage l = some (alt, tgt, rest)) :
    subImages f l = f alt tgt ++ subImages f rest := by
  cases l with
  | nil => simp [matchImage] at h
  | cons c cs =>
    unfold subImages
    simp only [List.length_cons, subImagesFuel, h]
    have hl := matchImage_length h
    simp only [List.length_cons] at hl
    rw [subImagesFuel_congr f cs.length rest.length rest (by omega) le_rfl]

theorem subImages_append_no_bang {f : List Char → List Char → List Char} :
    ∀ {s : List Char} (r : List Char), '!' ∉ s →
      subImages f (s ++ r) = s ++ subImages f r := by
  intro s
  induction s with
  | nil => intro r _; rfl
  | cons c s' ih =>
    intro r h
    have hc : c ≠ '!' := by rintro rfl; exact h (List.mem_cons_self _ _)
    have ht : '!' ∉ s' := fun hm => h (List.mem_cons_of_mem _ hm)
    rw [List.cons_append, subImages_cons_none (matchImage_none_of_ne hc), ih r ht]
    rfl

theorem subImages_no_bang {f : List Char → List Char → List Char} {s : List Char}
    (h : '!' ∉ s) : subImages f s = s := by
  have := subImages_append_no_bang (f := f) [] h
  simpa [subImages, subImagesFuel] using this

/-- A page text built of `n` well-formed image references interleaved with
plain segments: `chainText s₀ [((a₁,t₁),s₁), ..., ((aₙ,tₙ),sₙ)]` is
`s₀ ![a₁](t₁) s₁ ... ![aₙ](tₙ) sₙ`. -/
def chainText : List Char → List ((List Char × List Char) × List Char) → List Char
  | s, [] => s
  | s, ((a, t), s2) :: rest => s ++ mkRef a t ++ chainText s2 rest

/-- The same interleaving with every reference span replaced by `f alt tgt`
and every plain segment untouched. -/
def chainOut (f : List Char → List Char → List Char) :
    List Char → List ((List Char × List Char) × List Char) → List Char
  | s, [] => s
  | s, ((a, t), s2) :: rest => s ++ f a t ++ chainOut f s2 rest

theorem splitChar_of_not_mem {sep : Char} :
    ∀ {a : List Char}, sep ∉ a → splitChar sep a = [a] := by
  intro a
  induction a with
  | nil => intro _; rfl
  | cons c cs ih =>
    intro h
    have hc : c ≠ sep := by rintro rfl; exact h (List.mem_cons_self _ _)
    have ht : sep ∉ cs := fun hm => h (List.mem_cons_of_mem _ hm)
    simp [splitChar, hc, ih ht]

theorem splitChar_append {sep : Char} :
    ∀ {a : List Char} (b : List Char), sep ∉ a →
      splitChar sep (a ++ sep :: b) = a :: splitChar sep b := by
  intro a
  induction a with
  | nil => intro b _; simp [splitChar]
  | cons c cs ih =>
    intro b h
    have hc : c ≠ sep := by rintro rfl; exact h (List.mem_cons_self _ _)
    have ht : sep ∉ cs := fun hm => h (List.mem_cons_of_mem _ hm)
    have hr := ih b ht
    simp [splitChar, hc, hr]

theorem afterFirst_append {sep : Char} :
    ∀ {a : List Char} (b : List Char), sep ∉ a →
      afterFirst sep (a ++ sep :: b) = b := by
  intro a
  induction a with
  | nil => intro b _; simp [afterFirst]
  | cons c cs ih =>
    intro b h
    have hc : c ≠ sep := by rintro rfl; exact h (List.mem_cons_self _ _)
    have ht : sep ∉ cs := fun hm => h (List.mem_cons_of_mem _ hm)
    simp [afterFirst, hc, ih b ht]

theorem startsWith_append_self : ∀ (pat r : List Char), startsWith pat (pat ++ r) = true := by
  intro pat
  induction pat with
  | nil => intro r; rfl
  | cons p ps ih => intro r; simp [startsWith, ih r]

theorem containsSub_append_self :
    ∀ (a pat b : List Char), containsSub pat (a ++ pat ++ b) = true := by
  intro a
  induction a with
  | nil =>
    intro pat b
    cases pat with
    | nil => cases b <;> simp [containsSub, startsWith]
    | cons p ps =>
      simp only [List.nil_append, List.cons_append, containsSub]
      have := startsWith_append_self (p :: ps) b
      simp only [List.cons_append] at this
      simp [this]
  | cons c a' ih =>
    intro pat b
    simp [containsSub]
    right
    rw [← List.append_assoc]
    exact ih pat b

theorem containsSub_single_eq_false {x : Char} :
    ∀ {l : List Char}, x ∉ l → containsSub [x] l = false := by
  intro l
  induction l with
  | nil => intro _; rfl
  | cons c cs ih =>
    intro h
    have hc : x ≠ c := by rintro rfl; exact h (List.mem_cons_self _ _)
    have ht : x ∉ cs := fun hm => h (List.mem_cons_of_mem _ hm)
    simp [containsSub, startsWith, hc, ih ht]

theorem mapLookup_mem : ∀ {m : List (List Char × PyImgVal)} {k : List Char}
    {v : PyImgVal}, mapLookup k m = some v → (k, v) ∈ m := by
  intro m
  induction m with
  | nil => intro k v h; simp [mapLookup] at h
  | cons p rest ih =>
    intro k v h
    obtain ⟨k2, v2⟩ := p
    by_cases hk : k2 = k
    · subst hk
      simp [mapLookup] at h
      subst h
      exact List.mem_cons_self _ _
    · simp [mapLookup, hk] at h
      exact List.mem_cons_of_mem _ (ih h)

theorem firstExtHit_mem : ∀ (es : List (List Char))
    {m : List (List Char × PyImgVal)} {imgId : List Char} {v : PyImgVal},
    firstExtHit m imgId es = some v → ∃ k, (k, v) ∈ m := by
  intro es
  induction es with
  | nil => intro m imgId v h; simp [firstExtHit] at h
  | cons e es' ih =>
    intro m imgId v h
    simp only [firstExtHit] at h
    cases hl : mapLookup (imgId ++ e) m with
    | some v2 =>
      rw [hl] at h
      simp at h
      subst h
      exact ⟨imgId ++ e, mapLookup_mem hl⟩
    | none =>
      rw [hl] at h
      exact ih h

theorem lookupImageInfo_mem {m : List (List Char × PyImgVal)} {imgId : List Char}
    {v : PyImgVal} (h : lookupImageInfo m imgId = some v) : ∃ k, (k, v) ∈ m := by
  simp only [lookupImageInfo] at h
  cases hl : mapLookup imgId m with
  | some v2 =>
    rw [hl] at h
    simp at h
    subst h
    exact ⟨imgId, mapLookup_mem hl⟩
  | none =>
    rw [hl] at h
    by_cases he : hasExt5 imgId
    · simp [he] at h
    · simp [he] at h
      exact firstExtHit_mem _ h

theorem firstExtHit_eq_findSome (m : List (List Char × PyImgVal)) (imgId : List Char) :
    ∀ es : List (List Char),
      firstExtHit m imgId es = es.findSome? (fun e => mapLookup (imgId ++ e) m) := by
  intro es
  induction es with
  | nil => rfl
  | cons e es' ih =>
    simp only [firstExtHit, List.findSome?_cons]
    cases mapLookup (imgId ++ e) m with
    | some v => rfl
    | none => simpa using ih

/-- Claim C4: for every payload that is valid base64 (possibly line-wrapped
with whitespace, with or without a `data:<mime>;base64,` prefix) whose
decoded form is at least 100 bytes, `decodePayload` returns exactly the bytes
the reference decoder `b64decode` produces on the payload with the prefix and
whitespace stripped, and records the content type as the prefix's mime when
the prefix is present and as `image/png` otherwise. -/
theorem C4_decode_reference_and_content_type
    (mime body : List Char) (bs : List Nat)
    (hmime : ∀ c ∈ mime, c ≠ ':' ∧ c ≠ ';' ∧ c ≠ ',')
    (hbody : ∀ c ∈ body, c ≠ ',')
    (hdec : b64decode (removeWs body) = some bs)
    (hlen : 100 ≤ bs.length) :
    decodePayload body = some (bs, txt "image/png") ∧
    decodePayload (txt "data:" ++ mime ++ txt ";base64," ++ body) = some (bs, mime) := by
  have hcb : (',' : Char) ∉ body := fun hm => (hbody ',' hm) rfl
  have hcomma : txt "," = [','] := rfl
  constructor
  · simp only [decodePayload, hcomma, containsSub_single_eq_false hcb, Bool.false_and,
      Bool.false_eq_true, if_false]
    simp [decodeBody, hdec]
  · set raw := txt "data:" ++ mime ++ txt ";base64," ++ body with hraw
    have hsemidec : txt ";base64," = ';' :: txt "base64," := rfl
    have hdsplit : txt "data:" = txt "data" ++ [':'] := rfl
    have hb64split : txt ";base64," = txt ";base64" ++ [','] := rfl
    have hnosemi : ';' ∉ txt "data:" ++ mime := by
      intro hm
      rcases List.mem_append.mp hm with h | h
      · revert h; decide
      · exact (hmime _ h).2.1 rfl
    have hnocolonA : ':' ∉ txt "data" := by decide
    have hnocolonM : ':' ∉ mime := fun hm => (hmime _ hm).1 rfl
    have hnocommaPre : ',' ∉ txt "data:" ++ (mime ++ txt ";base64") := by
      intro hm
      rcases List.mem_append.mp hm with h | h
      · revert h; decide
      · rcases List.mem_append.mp h with h | h
        · exact (hmime _ h).2.2 rfl
        · revert h; decide
    have hrawn : raw = (txt "data:" ++ (mime ++ txt ";base64")) ++ ',' :: body := by
      rw [hraw]
      simp [hb64split, List.append_assoc]
    have hrawsemi : raw = (txt "data:" ++ mime) ++ ';' :: (txt "base64," ++ body) := by
      rw [hraw]
      simp [hsemidec, List.append_assoc]
    have hc1 : containsSub (txt ",") raw = true := by
      rw [hraw, hcomma]
      have := containsSub_append_self (txt "data:" ++ (mime ++ txt ";base64")) [','] body
      simpa [List.append_assoc, hb64split] using this
    have hc2 : containsSub (txt ";base64,") raw = true := by
      rw [hraw]
      have := containsSub_append_self (txt "data:" ++ mime) (txt ";base64,") body
      simpa [List.append_assoc] using this
    have hhead : (splitChar ';' raw).headD [] = txt "data:" ++ mime := by
      rw [hrawsemi, splitChar_append _ hnosemi]
      rfl
    have hsplitcolon : txt "data:" ++ mime = txt "data" ++ ':' :: mime := by
      rw [hdsplit]
      simp [List.append_assoc]
    have hget : (splitChar ':' ((splitChar ';' raw).headD [])).get? 1 = some mime := by
      rw [hhead, hsplitcolon, splitChar_append _ hnocolonA,
        splitChar_of_not_mem hnocolonM]
      rfl
    have hafter : afterFirst ',' raw = body := by
      rw [hrawn, afterFirst_append _ hnocommaPre]
    simp only [decodePayload, hc1, hc2, Bool.and_self, if_true, hget, hafter]
    simp [decodeBody, hdec]

set_option maxRecDepth 4000 in
/-- Witness for C4: a 136-character base64 payload of 102 zero bytes, decoded
without and with a `data:image/jpeg;base64,` prefix. -/
theorem C4_witness :
    decodePayload (List.replicate 136 'A') = some (List.replicate 102 0, txt "image/png") ∧
    decodePayload (txt "data:" ++ txt "image/jpeg" ++ txt ";base64," ++ List.replicate 136 'A') =
      some (List.replicate 102 0, txt "image/jpeg") := by
  have h := C4_decode_reference_and_content_type (txt "image/jpeg")
    (List.replicate 136 'A') (List.replicate 102 0)
    (by decide) (by decide) (by decide) (by decide)
  exact ⟨h.1, h.2⟩

/-- Claim C5: for every base64 string missing 1 to 3 trailing `=` padding
characters — an alphabet body `w` carrying `j` remaining trailing pads, whose
correctly padded form `w ++ '='^(j+k)` decodes — decoding succeeds with the
same bytes as the correctly padded input, via at most the single repair pass
(appending `=` until the length is a multiple of four and retrying once); and
when both the first and the repaired attempt fail the payload is rejected
(`none`) with no further retry. -/
theorem C5_padding_repair :
    (∀ (w : List Char) (j k : Nat) (bs : List Nat),
      (∀ c ∈ w, (b64val c).isSome = true) → 1 ≤ k → k ≤ 3 →
      b64decode (w ++ List.replicate (j + k) '=') = some bs →
      decodePayload (w ++ List.replicate j '=') = some (bs, txt "image/png") ∧
      decodePayload (w ++ List.replicate (j + k) '=') = some (bs, txt "image/png")) ∧
    (∀ data ct : List Char,
      b64decode (removeWs data) = none →
      b64decode (removeWs data ++ List.replicate (4 - (removeWs data).length % 4) '=') = none →
      decodeBody data ct = none) := by
  constructor
  · intro w j k bs hw hk1 hk3 hv
    have hcomma : txt "," = [','] := rfl
    have hmem : ∀ m, ∀ c ∈ w ++ List.replicate m '=',
        (b64val c).isSome = true ∨ c.toNat = 61 := by
      intro m c hc
      rcases List.mem_append.mp hc with h | h
      · exact Or.inl (hw c h)
      · have he : c = '=' := List.eq_of_mem_replicate h
        subst he
        exact Or.inr (by decide)
    have hnocomma : ∀ m, (',' : Char) ∉ w ++ List.replicate m '=' :=
      fun m hc => (pad_or_alpha_props (hmem m ',' hc)).2.2 rfl
    have hnows : ∀ m, removeWs (w ++ List.replicate m '=') = w ++ List.replicate m '=' := by
      intro m
      refine List.filter_eq_self.mpr ?_
      intro c hc
      simp [(pad_or_alpha_props (hmem m c hc)).1]
    have hdec : ∀ m, b64decode (w ++ List.replicate m '=') =
        Option.map (fun bs2 => (alphaRun w 0 0).1 ++ bs2)
          (if (alphaRun w 0 0).2.1 = 0 then some []
           else if 2 ≤ (alphaRun w 0 0).2.1 ∧ 1 ≤ m ∧ 4 ≤ (alphaRun w 0 0).2.1 + 0 + m
           then some [] else none) := by
      intro m
      have hall : (w ++ List.replicate m '=').all (fun c => c.toNat < 128) = true := by
        rw [List.all_eq_true]
        intro c hc
        have := (pad_or_alpha_props (hmem m c hc)).2.1
        simpa using this
      rw [b64decode, if_pos hall, b64scan_append_alpha w 0 0 _ hw, b64scan_pads]
    have hqpval : (alphaRun w 0 0).2.1 = w.length % 4 := by
      rw [alphaRun_qp w 0 0 (by omega) hw]
      omega
    have hgoal : ∀ m bs2, b64decode (w ++ List.replicate m '=') = some bs2 →
        decodePayload (w ++ List.replicate m '=') = some (bs2, txt "image/png") := by
      intro m bs2 hb
      rw [decodePayload, hcomma, containsSub_single_eq_false (hnocomma m)]
      simp only [Bool.false_and, Bool.false_eq_true, if_false, decodeBody, hnows m, hb]
    have hv' := hv
    rw [hdec (j + k)] at hv'
    by_cases hq0 : (alphaRun w 0 0).2.1 = 0
    · rw [if_pos hq0] at hv'
      simp only [Option.map_some', List.append_nil, Option.some.injEq] at hv'
      subst hv'
      refine ⟨hgoal j _ ?_, hgoal (j + k) _ hv⟩
      rw [hdec j, if_pos hq0]
      simp
    · rw [if_neg hq0] at hv'
      by_cases hcnd : 2 ≤ (alphaRun w 0 0).2.1 ∧ 1 ≤ j + k ∧
          4 ≤ (alphaRun w 0 0).2.1 + 0 + (j + k)
      · rw [if_pos hcnd] at hv'
        simp only [Option.map_some', List.append_nil, Option.some.injEq] at hv'
        subst hv'
        refine ⟨?_, hgoal (j + k) _ hv⟩
        by_cases hCj : 2 ≤ (alphaRun w 0 0).2.1 ∧ 1 ≤ j ∧
            4 ≤ (alphaRun w 0 0).2.1 + 0 + j
        · refine hgoal j _ ?_
          rw [hdec j, if_neg hq0, if_pos hCj]
          simp
        · have hfirst : b64decode (w ++ List.replicate j '=') = none := by
            rw [hdec j, if_neg hq0, if_neg hCj]
            rfl
          have hlen : (w ++ List.replicate j '=').length = w.length + j := by
            simp
          have hqp4 : (alphaRun w 0 0).2.1 < 4 := by omega
          have hpn : (w.length + j) % 4 = (alphaRun w 0 0).2.1 + j := by omega
          have hpnz : ¬((w.length + j) % 4 = 0) := by omega
          have hrep : 1 ≤ j + (4 - ((w.length + j) % 4)) ∧
              4 ≤ (alphaRun w 0 0).2.1 + 0 + (j + (4 - ((w.length + j) % 4))) := by omega
          have hsecond : b64decode
              (w ++ List.replicate (j + (4 - ((w.length + j) % 4))) '=') =
              some (alphaRun w 0 0).1 := by
            rw [hdec (j + (4 - ((w.length + j) % 4))), if_neg hq0,
              if_pos ⟨hcnd.1, hrep.1, hrep.2⟩]
            simp
          rw [decodePayload, hcomma, containsSub_single_eq_false (hnocomma j)]
          simp only [Bool.false_and, Bool.false_eq_true, if_false, decodeBody, hnows j,
            hfirst, hlen, hpnz, ne_eq, not_false_eq_true, if_true]
          rw [List.append_assoc, ← List.replicate_add, hsecond]
      · rw [if_neg hcnd] at hv'
        simp at hv'
  · intro data ct h1 h2
    by_cases hpn : (removeWs data).length % 4 = 0
    · simp [decodeBody, h1, h2, hpn]
    · simp [decodeBody, h1, h2, hpn]

set_option maxRecDepth 4000 in
/-- Witness for C5: `QUJDRA` (the padded form `QUJDRA==` of the bytes `ABCD`
with both `=` removed, so `j = 0`, `k = 2`) decodes via the repair pass to
the same four bytes as the padded form; and the one-character payload `Q`,
whose repaired form `Q===` is still invalid, is rejected. -/
theorem C5_witness :
    decodePayload (txt "QUJDRA" ++ List.replicate 0 '=') =
      some ([65, 66, 67, 68], txt "image/png") ∧
    decodePayload (txt "QUJDRA" ++ List.replicate 2 '=') =
      some ([65, 66, 67, 68], txt "image/png") ∧
    decodeBody (txt "Q") (txt "image/png") = none := by
  have h1 := C5_padding_repair.1 (txt "QUJDRA") 0 2 [65, 66, 67, 68]
    (by decide) (by decide) (by decide) (by decide)
  have h2 := C5_padding_repair.2 (txt "Q") (txt "image/png") (by decide) (by decide)
  exact ⟨h1.1, h1.2, h2⟩

/-- Claim C6: every image whose decoded payload is under 100 bytes is
rejected by `_process_single_image` (no record, nothing persisted) and the
extraction run continues: the image map and write set of a task list
containing such a task equal those of the task list without it. -/
theorem C6_small_image_skipped (env : Env) (imagesDir : List Char)
    (pageIdx imgIdx : Nat) (img : EmbeddedImage) (payload : List Char)
    (bs : List Nat) (ct : List Char)
    (hp : img.imageBase64 = some payload)
    (hdec : decodePayload payload = some (bs, ct))
    (hsmall : bs.length < 100) :
    processSingleImage env imagesDir (pageIdx, imgIdx, img) = none ∧
    ∀ pre post : List (Nat × Nat × EmbeddedImage),
      saveTasks env imagesDir (pre ++ (pageIdx, imgIdx, img) :: post) =
      saveTasks env imagesDir (pre ++ post) := by
  have hnone : processSingleImage env imagesDir (pageIdx, imgIdx, img) = none := by
    by_cases hpe : payload.isEmpty
    · simp [processSingleImage, hp, hpe]
    · simp [processSingleImage, hp, hpe, hdec, hsmall]
  refine ⟨hnone, ?_⟩
  intro pre post
  simp only [saveTasks, List.foldl_append, List.foldl_cons]
  congr 1
  simp [saveStep, hnone]

/-- Witness for C6: a 4-character payload decoding to the 3 bytes `ABC` is
skipped, and processing a good image alongside it yields the same map and
writes as processing the good image alone. -/
theorem C6_witness :
    processSingleImage
      ⟨false, false, false, fun _ _ _ => .ok [], fun _ => .exn, .ok []⟩
      (txt "out/doc_images")
      (0, 1, ⟨some (txt "b.png"), some (txt "QUJD")⟩) = none ∧
    saveTasks ⟨false, false, false, fun _ _ _ => .ok [], fun _ => .exn, .ok []⟩
      (txt "out/doc_images")
      ([(0, 0, ⟨some (txt "g.png"), some (List.replicate 136 'A')⟩)] ++
        (0, 1, (⟨some (txt "b.png"), some (txt "QUJD")⟩ : EmbeddedImage)) :: []) =
    saveTasks ⟨false, false, false, fun _ _ _ => .ok [], fun _ => .exn, .ok []⟩
      (txt "out/doc_images")
      ([(0, 0, ⟨some (txt "g.png"), some (List.replicate 136 'A')⟩)] ++ []) := by
  have h := C6_small_image_skipped
    ⟨false, false, false, fun _ _ _ => .ok [], fun _ => .exn, .ok []⟩
    (txt "out/doc_images") 0 1 ⟨some (txt "b.png"), some (txt "QUJD")⟩
    (txt "QUJD") [65, 66, 67] (txt "image/png") rfl (by decide) (by decide)
  exact ⟨h.1, h.2 [(0, 0, ⟨some (txt "g.png"), some (List.replicate 136 'A')⟩)] []⟩

/-- Claim C8: reference resolution of the target's trailing path segment
follows exactly the specified order — (a) exact ID lookup, (b) only when the
ID lacks a known image extension, the candidates `.png`, `.jpg`, `.jpeg`,
`.gif`, `.webp` in that fixed order with the first present key winning — and
an unresolved reference leaves the original match text unchanged. -/
theorem C8_lookup_order (m : List (List Char × PyImgVal))
    (imgId outputDir altText originalUrl : List Char) :
    lookupImageInfo m imgId = lookupOrderSpec m imgId ∧
    (hasExt5 imgId = true → lookupImageInfo m imgId = mapLookup imgId m) ∧
    (lookupImageInfo m (lastSegment originalUrl) = none →
      replaceImageLink m outputDir altText originalUrl = mkRef altText originalUrl) := by
  refine ⟨?_, ?_, ?_⟩
  · simp only [lookupImageInfo, lookupOrderSpec]
    cases mapLookup imgId m with
    | some v => rfl
    | none =>
      by_cases he : hasExt5 imgId
      · simp [he]
      · simp [he, firstExtHit_eq_findSome]
  · intro he
    simp only [lookupImageInfo]
    cases mapLookup imgId m with
    | some v => rfl
    | none => simp [he]
  · intro h
    simp [replaceImageLink, h]

/-- Witness for C8: in a map holding only `x.jpg`, the ID `x` (no known
extension) resolves through the candidate list to `x.jpg`'s record exactly as
the specification's lookup order dictates; the ID `y.png` (known extension)
is looked up only exactly; and an unresolved reference is left unchanged. -/
theorem C8_witness :
    lookupImageInfo [(txt "x.jpg", .vstr (txt "p"))] (txt "x") =
      lookupOrderSpec [(txt "x.jpg", .vstr (txt "p"))] (txt "x") ∧
    lookupImageInfo [(txt "x.jpg", .vstr (txt "p"))] (txt "y.png") =
      mapLookup (txt "y.png") [(txt "x.jpg", .vstr (txt "p"))] ∧
    replaceImageLink [(txt "x.jpg", .vstr (txt "p"))] (txt "out") (txt "alt") (txt "a/zz") =
      mkRef (txt "alt") (txt "a/zz") := by
  have h := C8_lookup_order [(txt "x.jpg", .vstr (txt "p"))] (txt "x") (txt "out")
    (txt "alt") (txt "a/zz")
  have h2 := C8_lookup_order [(txt "x.jpg", .vstr (txt "p"))] (txt "y.png") (txt "out")
    (txt "alt") (txt "a/zz")
  exact ⟨h.1, h2.2.1 (by decide), h.2.2 (by decide)⟩

/-- Counterexample for C9: with the claim's own inputs — page text
`![a](img1.jpeg)`, map entry `img1.jpeg ↦ {locator "imgs/img1.jpeg",
isRemote false}`, output base directory `out` — the rewriting produces
`![a](../imgs/img1.jpeg)` (os.path.relpath resolves `imgs/img1.jpeg` as a
sibling of `out`, not inside it), not the claimed `![a](imgs/img1.jpeg)`. -/
theorem C9_example_cex :
    subImages (replaceImageLink
        [(txt "img1.jpeg", .vdict (txt "imgs/img1.jpeg") false none)] (txt "out"))
      (txt "![a](img1.jpeg)") = txt "![a](../imgs/img1.jpeg)" ∧
    txt "![a](../imgs/img1.jpeg)" ≠ txt "![a](imgs/img1.jpeg)" := by
  exact ⟨by decide, by decide⟩

/-- Claim C9 (amended): a resolved reference is rewritten to the record's
locator verbatim when `isRemote` holds and otherwise to
`os.path.relpath(path, outputBaseDir)` with forward slashes (both paths
being relative paths rooted at the working directory, as the program always
forms them); on the claim's example inputs this yields
`![a](../imgs/img1.jpeg)`, not `![a](imgs/img1.jpeg)`. -/
theorem C9_locator_formatting (m : List (List Char × PyImgVal))
    (outputDir altText originalUrl p : List Char) (s3 : Bool) (d : Option (List Char))
    (h : lookupImageInfo m (lastSegment originalUrl) = some (.vdict p s3 d))
    (hp : p ≠ []) (hpd : withinCwd p = true) (hod : withinCwd outputDir = true) :
    replaceImageLink m outputDir altText originalUrl =
      (if s3 then mkRef altText p else mkRef altText (relpath p outputDir)) ∧
    replaceImageLink [(txt "img1.jpeg", .vdict (txt "imgs/img1.jpeg") false none)]
      (txt "out") (txt "a") (txt "img1.jpeg") =
      mkRef (txt "a") (txt "../imgs/img1.jpeg") := by
  constructor
  · simp [replaceImageLink, h, hp]
  · decide

/-- Witness for C9: a remote record keeps its URL verbatim, and the amended
example instance holds. -/
theorem C9_witness :
    replaceImageLink [(txt "i.png", .vdict (txt "http://h/i.png") true none)]
      (txt "out") (txt "a") (txt "i.png") = mkRef (txt "a") (txt "http://h/i.png") ∧
    replaceImageLink [(txt "img1.jpeg", .vdict (txt "imgs/img1.jpeg") false none)]
      (txt "out") (txt "a") (txt "img1.jpeg") =
      mkRef (txt "a") (txt "../imgs/img1.jpeg") := by
  have h := C9_locator_formatting [(txt "i.png", .vdict (txt "http://h/i.png") true none)]
    (txt "out") (txt "a") (txt "i.png") (txt "http://h/i.png") true none
    (by decide) (by decide) (by decide) (by decide)
  exact ⟨by simpa using h.1, h.2⟩

/-- Counterexample for C2: a full conversion run in enhanced mode whose only
image resolves to a record without a description (the describer raised, so
the description is absent) leaves the reference completely unchanged — the
link target is not replaced with the record's locator, contradicting the
claim's "this holds whether or not enhancement mode is enabled". -/
theorem C2_enhanced_mode_cex :
    (createMarkdownFromOcr
        ⟨false, true, true, fun _ _ _ => .ok [], fun _ => .exn, .ok []⟩
        [⟨some (txt "![a](img-0.jpeg)"),
          [⟨some (txt "img-0.jpeg"), some (List.replicate 136 'A')⟩]⟩]
        (txt "out") (txt "doc")).content = txt "![a](img-0.jpeg)" ∧
    (saveImagesFromOcr
        ⟨false, true, true, fun _ _ _ => .ok [], fun _ => .exn, .ok []⟩
        [⟨some (txt "![a](img-0.jpeg)"),
          [⟨some (txt "img-0.jpeg"), some (List.replicate 136 'A')⟩]⟩]
        (txt "out/doc_images")).1 =
      [(txt "img-0.jpeg", .vdict (txt "out/doc_images/img-0.jpeg") false none)] ∧
    txt "![a](img-0.jpeg)" ≠ mkRef (txt "a") (txt "doc_images/img-0.jpeg") := by
  refine ⟨by decide, by decide, by decide⟩

/-- Claim C2 (amended): when enhancement mode is disabled, a reference
resolving to a record without a description has only its link target
replaced by the record's locator, with the alt text preserved; when
enhancement mode is enabled, the per-page pass rewrites nothing of a map
whose records all lack descriptions, leaving such references unchanged. -/
theorem C2_no_description_resolution (m : List (List Char × PyImgVal))
    (outputDir altText originalUrl p : List Char) (s3 : Bool)
    (h : lookupImageInfo m (lastSegment originalUrl) = some (.vdict p s3 none))
    (hp : p ≠ []) (hpd : withinCwd p = true) (hod : withinCwd outputDir = true) :
    replaceImageLink m outputDir altText originalUrl =
      mkRef altText (if s3 then p else relpath p outputDir) ∧
    ∀ content : List Char,
      (∀ k p2 s2 d2, (k, PyImgVal.vdict p2 s2 (some d2)) ∈ m → False) →
      enhancedPass m outputDir content = content := by
  constructor
  · by_cases hs : s3 <;> simp [replaceImageLink, h, hp, hs]
  · intro content hnd
    unfold enhancedPass
    have hstep : ∀ (pc : List Char) (r : List Char × List Char),
        enhancedStep m outputDir pc r = pc := by
      intro pc r
      cases hl : lookupImageInfo m (lastSegment r.2) with
      | none => simp [enhancedStep, hl]
      | some v =>
        cases v with
        | vstr s => simp [enhancedStep, hl]
        | vdict p2 s2 d2 =>
          cases d2 with
          | none => simp [enhancedStep, hl]
          | some dd =>
            exfalso
            obtain ⟨k, hk⟩ := lookupImageInfo_mem hl
            exact hnd k p2 s2 dd hk
    have : ∀ (refs : List (List Char × List Char)) (pc : List Char),
        refs.foldl (enhancedStep m outputDir) pc = pc := by
      intro refs
      induction refs with
      | nil => intro pc; rfl
      | cons r rs ih =>
        intro pc
        rw [List.foldl_cons, hstep pc r, ih pc]
    exact this _ content

/-- Witness for C2 (amended): a description-free remote record rewrites only
the target in the non-enhanced pass, and the enhanced pass leaves a page over
a description-free map untouched. -/
theorem C2_witness :
    replaceImageLink [(txt "i.png", .vdict (txt "http://h/i.png") true none)]
      (txt "out") (txt "z") (txt "i.png") =
      mkRef (txt "z") (if true then txt "http://h/i.png"
        else relpath (txt "http://h/i.png") (txt "out")) ∧
    enhancedPass [(txt "i.png", .vdict (txt "http://h/i.png") true none)]
      (txt "out") (txt "![z](i.png)") = txt "![z](i.png)" := by
  have h := C2_no_description_resolution
    [(txt "i.png", .vdict (txt "http://h/i.png") true none)]
    (txt "out") (txt "z") (txt "i.png") (txt "http://h/i.png") true
    (by decide) (by decide) (by decide) (by decide)
  refine ⟨h.1, h.2 (txt "![z](i.png)") ?_⟩
  intro k p2 s2 d2 hk
  simp at hk

/-- Counterexample for C3: in enhanced mode the per-page rewriting is not a
single independent left-to-right pass.  With two records whose first
description itself contains the second reference text, the second iteration's
global `str.replace` also rewrites the occurrence introduced by the first
iteration's replacement: three spans are rewritten for two references, and
text inside an earlier replacement is altered, so the output differs from the
independent-pass result. -/
theorem C3_enhanced_not_single_pass_cex :
    enhancedPass
        [(txt "a.png", .vdict (txt "https://h/a.png") true (some (txt "see ![y](b.png) here"))),
         (txt "b.png", .vdict (txt "https://h/b.png") true (some (txt "B")))]
        (txt "out") (txt "![x](a.png) and ![y](b.png)") =
      txt "![x](https://h/a.png)\n\n**AI图片分析**：see ![y](https://h/b.png)\n\n**AI图片分析**：B\n here\n and ![y](https://h/b.png)\n\n**AI图片分析**：B\n" ∧
    txt "![x](https://h/a.png)\n\n**AI图片分析**：see ![y](https://h/b.png)\n\n**AI图片分析**：B\n here\n and ![y](https://h/b.png)\n\n**AI图片分析**：B\n" ≠
      txt "![x](https://h/a.png)\n\n**AI图片分析**：see ![y](b.png) here\n and ![y](https://h/b.png)\n\n**AI图片分析**：B\n" := by
  exact ⟨by decide, by decide⟩

/-- Claim C3 (amended): the non-enhanced `re.sub` rewriting is a single
left-to-right pass handling each match independently: on a page that is an
interleaving of `!`-free segments with N well-formed references, it replaces
exactly the N reference spans by `f alt target` — for arbitrary `f`, so a
replacement is never rescanned — and preserves every byte outside those
spans.  (The enhanced-mode pass violates this; see the counterexample.) -/
theorem C3_single_pass_independent (f : List Char → List Char → List Char) :
    ∀ (l : List ((List Char × List Char) × List Char)) (s : List Char),
      '!' ∉ s →
      (∀ p ∈ l, ']' ∉ p.1.1 ∧ ')' ∉ p.1.2 ∧ p.1.2 ≠ [] ∧ '!' ∉ p.2) →
      subImages f (chainText s l) = chainOut f s l := by
  intro l
  induction l with
  | nil => intro s hs _; exact subImages_no_bang hs
  | cons p rest ih =>
    obtain ⟨⟨a, t⟩, s2⟩ := p
    intro s hs hl
    obtain ⟨h1, h2, h3, h4⟩ := hl _ (List.mem_cons_self _ _)
    have hrest := fun q hq => hl q (List.mem_cons_of_mem _ hq)
    show subImages f (s ++ mkRef a t ++ chainText s2 rest) =
      s ++ f a t ++ chainOut f s2 rest
    rw [List.append_assoc, subImages_append_no_bang _ hs,
      subImages_of_match (matchImage_mkRef h1 h2 h3 _), ih s2 h4 hrest,
      List.append_assoc]

/-- Witness for C3 (amended): one segment, one resolving reference — the
non-enhanced pass rewrites exactly that span and leaves the segments
byte-for-byte unchanged. -/
theorem C3_witness :
    subImages (replaceImageLink [(txt "i.png", .vdict (txt "http://h/i.png") true none)]
        (txt "out"))
      (chainText (txt "intro ") [((txt "x", txt "i.png"), txt " end")]) =
    chainOut (replaceImageLink [(txt "i.png", .vdict (txt "http://h/i.png") true none)]
        (txt "out"))
      (txt "intro ") [((txt "x", txt "i.png"), txt " end")] := by
  exact C3_single_pass_independent _ [((txt "x", txt "i.png"), txt " end")]
    (txt "intro ") (by decide) (by decide)

/-- Counterexample for C1: the conversion's terminal result carries no
failure information.  A run whose second image fails to decode (4-character
payload, 3 bytes) is observationally identical — same returned path, same
document content, same writes — to the run without that image, and it still
reports success; the failure is silently dropped rather than reported in any
`failures` field. -/
theorem C1_failures_not_reported_cex :
    createMarkdownFromOcr
        ⟨false, false, false, fun _ _ _ => .ok [], fun _ => .exn, .ok []⟩
        [⟨some (txt "hello"),
          [⟨some (txt "g.png"), some (List.replicate 136 'A')⟩,
           ⟨some (txt "b.png"), some (txt "QUJD")⟩]⟩]
        (txt "out") (txt "doc") =
      createMarkdownFromOcr
        ⟨false, false, false, fun _ _ _ => .ok [], fun _ => .exn, .ok []⟩
        [⟨some (txt "hello"),
          [⟨some (txt "g.png"), some (List.replicate 136 'A')⟩]⟩]
        (txt "out") (txt "doc") ∧
    (createMarkdownFromOcr
        ⟨false, false, false, fun _ _ _ => .ok [], fun _ => .exn, .ok []⟩
        [⟨some (txt "hello"),
          [⟨some (txt "g.png"), some (List.replicate 136 'A')⟩,
           ⟨some (txt "b.png"), some (txt "QUJD")⟩]⟩]
        (txt "out") (txt "doc")).finalPath = txt "out/doc.md" ∧
    processSingleImage
        ⟨false, false, false, fun _ _ _ => .ok [], fun _ => .exn, .ok []⟩
        (txt "out/doc_images")
        (0, 1, ⟨some (txt "b.png"), some (txt "QUJD")⟩) = none := by
  refine ⟨by decide, by decide, by decide⟩

/-- Claim C1 (amended): image-level failures are contained, never thrown
past the per-image boundary and never abort the batch — a task on which
`_process_single_image` returns `none` contributes nothing and leaves the
processing of every other task unchanged — but they are not reported either:
the terminal result is only the document path (see the counterexample). -/
theorem C1_failures_contained (env : Env) (imagesDir : List Char)
    (t : Nat × Nat × EmbeddedImage)
    (h : processSingleImage env imagesDir t = none) :
    ∀ pre post : List (Nat × Nat × EmbeddedImage),
      saveTasks env imagesDir (pre ++ t :: post) =
      saveTasks env imagesDir (pre ++ post) := by
  intro pre post
  simp only [saveTasks, List.foldl_append, List.foldl_cons]
  congr 1
  simp [saveStep, h]

/-- Witness for C1 (amended): a decode-failing image between two good ones
leaves the extraction results unchanged. -/
theorem C1_witness :
    saveTasks ⟨false, false, false, fun _ _ _ => .ok [], fun _ => .exn, .ok []⟩
      (txt "out/doc_images")
      ([(0, 0, ⟨some (txt "g.png"), some (List.replicate 136 'A')⟩)] ++
        (0, 1, (⟨some (txt "b.png"), some (txt "QUJD")⟩ : EmbeddedImage)) ::
        [(0, 2, ⟨some (txt "h.png"), some (List.replicate 136 'A')⟩)]) =
    saveTasks ⟨false, false, false, fun _ _ _ => .ok [], fun _ => .exn, .ok []⟩
      (txt "out/doc_images")
      ([(0, 0, ⟨some (txt "g.png"), some (List.replicate 136 'A')⟩)] ++
        [(0, 2, ⟨some (txt "h.png"), some (List.replicate 136 'A')⟩)]) := by
  exact C1_failures_contained _ _ _ (by decide)
    [(0, 0, ⟨some (txt "g.png"), some (List.replicate 136 'A')⟩)]
    [(0, 2, ⟨some (txt "h.png"), some (List.replicate 136 'A')⟩)]

/-- Claim C7 (code bug): when the remote store signals failure by raising —
as the repository's `S3Storage` does on every `upload_bytes` call, since the
method does not exist, and as `upload_file` does on upload errors — the
per-image handler at markmuse.py lines 524-526 swallows the exception and the
image is dropped entirely: no local fallback, no record, no write.  Only a
falsy return value from the remote store triggers the documented local
fallback with `is_s3` absent (false). -/
theorem C7_remote_exception_drops_image :
    processSingleImage
        ⟨true, false, false, fun _ _ _ => .exn, fun _ => .exn, .ok []⟩
        (txt "out/doc_images")
        (0, 0, ⟨some (txt "g.png"), some (List.replicate 136 'A')⟩) = none ∧
    processSingleImage
        ⟨true, false, false, fun _ _ _ => .ok [], fun _ => .exn, .ok []⟩
        (txt "out/doc_images")
        (0, 0, ⟨some (txt "g.png"), some (List.replicate 136 'A')⟩) =
      some (txt "g.png",
        .vdict (txt "out/doc_images/g.png") false none,
        [(txt "out/doc_images/g.png", List.replicate 102 0)]) := by
  refine ⟨by decide, by decide⟩

/-- Claim C10: the assembled document is always written locally first — its
content is independent of the upload outcome — and when remote mode is
enabled but the document upload returns no URL, the conversion still reports
success and returns the local output file path as the document locator. -/
theorem C10_local_write_then_upload (env : Env) (pages : List Page)
    (outputDir filename : List Char)
    (hs3 : env.useS3 = true) (hup : env.mdUpload = .ok []) :
    (createMarkdownFromOcr env pages outputDir filename).finalPath =
      joinPath outputDir (filename ++ txt ".md") ∧
    (createMarkdownFromOcr env pages outputDir filename).finalPath ≠ [] ∧
    ∀ u : CallResult (List Char),
      (createMarkdownFromOcr { env with mdUpload := u } pages outputDir filename).content =
      (createMarkdownFromOcr env pages outputDir filename).content := by
  refine ⟨?_, ?_, ?_⟩
  · simp [createMarkdownFromOcr, hs3, hup]
  · simp [createMarkdownFromOcr, hs3, hup, joinPath]
    intro _ h2
    exact absurd h2 (by decide)
  · intro u
    rfl

/-- Witness for C10: a concrete S3-mode run whose document upload returns no
URL yields the local path `out/doc.md`, and its content matches the run whose
upload raises. -/
theorem C10_witness :
    (createMarkdownFromOcr
        ⟨true, false, false, fun _ _ _ => .ok [], fun _ => .exn, .ok []⟩
        [⟨some (txt "hello"), []⟩] (txt "out") (txt "doc")).finalPath =
      joinPath (txt "out") (txt "doc" ++ txt ".md") ∧
    (createMarkdownFromOcr
        ⟨true, false, false, fun _ _ _ => .ok [], fun _ => .exn, .ok []⟩
        [⟨some (txt "hello"), []⟩] (txt "out") (txt "doc")).finalPath ≠ [] ∧
    (createMarkdownFromOcr
        ⟨true, false, false, fun _ _ _ => .ok [], fun _ => .exn, .exn⟩
        [⟨some (txt "hello"), []⟩] (txt "out") (txt "doc")).content =
    (createMarkdownFromOcr
        ⟨true, false, false, fun _ _ _ => .ok [], fun _ => .exn, .ok []⟩
        [⟨some (txt "hello"), []⟩] (txt "out") (txt "doc")).content := by
  have h := C10_local_write_then_upload
    ⟨true, false, false, fun _ _ _ => .ok [], fun _ => .exn, .ok []⟩
    [⟨some (txt "hello"), []⟩] (txt "out") (txt "doc") rfl rfl
  exact ⟨h.1, h.2.1, h.2.2 .exn⟩
